import Mathlib

/-!
Verification development for the rolling-12-month energy-share pipeline.

The Python source is shallowly embedded: numeric values are modelled as
exact rationals (`ℚ`), machine integers as `ℕ`/`ℤ`, dictionaries as
association lists or update-functions, and fallible operations as
`Option`.  Each definition mirrors one function of the source
(`lib/format.py`, `lib/process.py`); the comments cite the lines embedded.
-/

unseal Rat.add Rat.mul Rat.inv Rat.sub

/-! ### Precision formatter (`lib/format.py`, `format_precision`, lines 12-42) -/

/-- Fueled base-10 floor logarithm on `ℕ`: `log10fuel fuel n` equals
`⌊log10 n⌋` whenever `1 ≤ n ≤ fuel`.  Structural recursion on the fuel keeps
the definition kernel-computable. -/
def log10fuel : ℕ → ℕ → ℕ
  | 0, _ => 0
  | fuel + 1, n => if n < 10 then 0 else log10fuel fuel (n / 10) + 1

/-- Fueled base-10 ceiling logarithm on `ℕ`: `clog10fuel fuel n` is the least
`k` with `n ≤ 10 ^ k`, whenever `n ≤ fuel`. -/
def clog10fuel : ℕ → ℕ → ℕ
  | 0, _ => 0
  | fuel + 1, n => if n ≤ 1 then 0 else clog10fuel fuel ((n + 9) / 10) + 1

/-- Exact `⌊log10 q⌋` for a positive rational, modelling
`math.floor(math.log10(value))` from `format_precision` (line 31); the float
`log10` of CPython is exact on the inputs the pipeline feeds it, so the exact
integer logarithm is the faithful value-level model. -/
def floorLog10 (q : ℚ) : ℤ :=
  if 1 ≤ q then (log10fuel (⌊q⌋).toNat (⌊q⌋).toNat : ℤ)
  else -(clog10fuel (⌈q⁻¹⌉).toNat (⌈q⁻¹⌉).toNat : ℤ)

/-- Round a rational to the nearest integer, ties to even: the semantics of
the Python builtin `round` on the exact value. -/
def rhe (q : ℚ) : ℤ :=
  if q - ⌊q⌋ < 1/2 then ⌊q⌋
  else if 1/2 < q - ⌊q⌋ then ⌊q⌋ + 1
  else if ⌊q⌋ % 2 = 0 then ⌊q⌋ else ⌊q⌋ + 1

/-- Python `round(q, d)`: round to `d` decimal digits (`d` may be negative),
ties to even. -/
def roundTo (q : ℚ) (d : ℤ) : ℚ := (rhe (q * 10 ^ d) : ℚ) / 10 ^ d

/-- Result type of `format_precision`: Python returns either an `int` or a
`float`; we carry the exact decimal value of the float. -/
inductive PyNum where
  | int : ℤ → PyNum
  | float : ℚ → PyNum
deriving DecidableEq

/-- Numeric value denoted by a `PyNum`. -/
def pyVal : PyNum → ℚ
  | .int z => (z : ℚ)
  | .float q => q

/-- Embedding of `format_precision(value, min_sig_figs)` (`lib/format.py`
lines 12-42).  In Python `min_sig_figs` defaults to 4.  The final branch
models line 41: the value is rendered with a fixed-width format of exactly
10 decimal places (which rounds once more, at 10 decimal places), trailing
zeros and a trailing decimal point are stripped, and the result is read back
as a number; the stripping does not change the value, so the branch denotes
the 10-place rounding of the first rounding.  The local variables
`magnitude` and `rounded` of the source are inlined. -/
def format_precision (value : ℚ) (min_sig_figs : ℕ) : PyNum :=
  if value = 0 then .int 0
  else if (roundTo value (-(floorLog10 |value|) + (min_sig_figs : ℤ) - 1)).den = 1 then
    .int (roundTo value (-(floorLog10 |value|) + (min_sig_figs : ℤ) - 1)).num
  else .float (roundTo (roundTo value (-(floorLog10 |value|) + (min_sig_figs : ℤ) - 1)) 10)

example : format_precision (12345678/10000) 4 = .int 1235 := by decide
example : format_precision (123456/1000000) 4 = .float (1235/10000) := by decide
example : format_precision 1000 4 = .int 1000 := by decide
example : format_precision 0 4 = .int 0 := by decide
example : format_precision (123456/100000000000000) 4 = .float (12/10000000000) := by decide

/-! ### Gregorian calendar model (for `datetime.date` arithmetic) -/

/-- A calendar date, modelling `datetime.date` (whose fields are always a
valid Gregorian date with year at least 1). -/
structure CalDate where
  year : ℕ
  month : ℕ
  day : ℕ
deriving DecidableEq

/-- Gregorian leap-year rule, as implemented by `datetime`. -/
def isLeap (y : ℕ) : Prop := (y % 4 = 0 ∧ y % 100 ≠ 0) ∨ y % 400 = 0

instance (y : ℕ) : Decidable (isLeap y) := by unfold isLeap; infer_instance

/-- Number of days in a month of a given year. -/
def daysInMonth (y m : ℕ) : ℕ :=
  if m = 2 then (if isLeap y then 29 else 28)
  else if m = 4 ∨ m = 6 ∨ m = 9 ∨ m = 11 then 30
  else 31

/-- Days of the year strictly before month `m` (so 0 for January). -/
def daysBeforeMonth (y : ℕ) : ℕ → ℕ
  | 0 => 0
  | 1 => 0
  | m + 2 => daysBeforeMonth y (m + 1) + daysInMonth y (m + 1)

/-- Number of leap years in `[1, y-1]`. -/
def leapsBefore (y : ℕ) : ℕ := (y - 1) / 4 - (y - 1) / 100 + (y - 1) / 400

/-- Rata-die style day number: `ordinal ⟨1,1,1⟩ = 1`, and consecutive valid
dates have consecutive ordinals. -/
def ordinal (d : CalDate) : ℕ :=
  365 * (d.year - 1) + leapsBefore d.year + daysBeforeMonth d.year d.month + d.day

/-- Validity predicate matching the dates representable by `datetime.date`
(ignoring the upper year bound 9999, which is irrelevant here). -/
def ValidDate (d : CalDate) : Prop :=
  1 ≤ d.year ∧ 1 ≤ d.month ∧ d.month ≤ 12 ∧ 1 ≤ d.day ∧ d.day ≤ daysInMonth d.year d.month

instance (d : CalDate) : Decidable (ValidDate d) := by unfold ValidDate; infer_instance

/-- The next calendar day (`date + timedelta(days=1)`). -/
def succDay (d : CalDate) : CalDate :=
  if d.day < daysInMonth d.year d.month then ⟨d.year, d.month, d.day + 1⟩
  else if d.month < 12 then ⟨d.year, d.month + 1, 1⟩
  else ⟨d.year + 1, 1, 1⟩

/-- The previous calendar day (`date - timedelta(days=1)`). -/
def predDay (d : CalDate) : CalDate :=
  if 1 < d.day then ⟨d.year, d.month, d.day - 1⟩
  else if 1 < d.month then ⟨d.year, d.month - 1, daysInMonth d.year (d.month - 1)⟩
  else ⟨d.year - 1, 12, 31⟩

/-- Calendar addition of `n` days (`date + timedelta(days=n)`). -/
def addDays (d : CalDate) : ℕ → CalDate
  | 0 => d
  | n + 1 => addDays (succDay d) n

/-- Python `date.replace(year=y)`: keeps month and day, validates the result
and raises `ValueError` (modelled as `none`) when the new date does not
exist, e.g. Feb 29 moved to a non-leap year. -/
def replaceYear (d : CalDate) (y : ℕ) : Option CalDate :=
  if ValidDate ⟨y, d.month, d.day⟩ then some ⟨y, d.month, d.day⟩ else none

/-- Zero-pad a natural to (at least) two digits, as the format specifier
02d does. -/
def pad2 (n : ℕ) : String := if n < 10 then "0" ++ toString n else toString n

/-- Zero-pad a natural to (at least) four digits, as the format specifier
04d does. -/
def pad4 (n : ℕ) : String :=
  if n < 10 then "000" ++ toString n
  else if n < 100 then "00" ++ toString n
  else if n < 1000 then "0" ++ toString n
  else toString n

/-- Embedding of `format_date(year, month)` (`lib/process.py` lines 37-48). -/
def format_date (year month : ℕ) : String := pad4 year ++ "-" ++ pad2 month

/-- ISO day string, modelling `strftime` with the year-month-day format used
at `lib/process.py` line 116. -/
def format_day (d : CalDate) : String := pad4 d.year ++ "-" ++ pad2 d.month ++ "-" ++ pad2 d.day

/-! ### Monthly period key (`lib/process.py` lines 106-112) -/

/-- The derived monthly period key of sample `i` for a series starting in
year `sy`, month `sm`: the exact arithmetic of `extract_energy_data`
lines 108-112 (`month_offset`, `year_offset`, `month`, `year`). -/
def monthKeyPair (sy sm i : ℕ) : ℕ × ℕ :=
  (sy + (sm + i - 1) / 12, (sm + i - 1) % 12 + 1)

/-- Step one month forward on a `(year, month)` pair. -/
def nextMonth (p : ℕ × ℕ) : ℕ × ℕ := if p.2 = 12 then (p.1 + 1, 1) else (p.1, p.2 + 1)

/-- Direct calendar addition of `i` months to a `(year, month)` pair. -/
def addMonths : ℕ × ℕ → ℕ → ℕ × ℕ
  | p, 0 => p
  | p, i + 1 => addMonths (nextMonth p) i

example : monthKeyPair 2006 11 2 = (2007, 1) := by decide
example : addMonths (2006, 11) 2 = (2007, 1) := by decide

/-! ### Series extractor (`lib/process.py`, `extract_energy_data`, lines 51-120) -/

/-- Split a character list at every dot, keeping empty segments: the
semantics of the Python string method `split` with a single-dot separator,
applied at line 83. -/
def splitDotsAux : List Char → List Char → List String
  | [], acc => [String.mk acc.reverse]
  | c :: rest, acc =>
    if c = '.' then String.mk acc.reverse :: splitDotsAux rest [] else splitDotsAux rest (c :: acc)

/-- Dotted-identifier segments of a series id string. -/
def splitDots (s : String) : List String := splitDotsAux s.data []

example : splitDots "au.nem.fuel_tech.coal_black.energy"
    = ["au", "nem", "fuel_tech", "coal_black", "energy"] := by decide

/-- Key of the extracted mapping: a `(year, month)` pair for monthly data, an
ISO date string for daily data. -/
inductive DateKey where
  | month : ℕ → ℕ → DateKey
  | day : String → DateKey
deriving DecidableEq

/-- The history block of a series: start date, optional declared interval,
and the ordered numeric-or-null sample array.  A series whose history is
missing the required fields is modelled by `none` at the `Series` level. -/
structure History where
  start : CalDate
  interval : Option String
  data : List (Option ℚ)
deriving DecidableEq

/-- One series object of the payload: the dotted id and the (possibly
malformed, hence optional) history block. -/
structure Series where
  id : String
  history : Option History
deriving DecidableEq

/-- Segments of the series id (line 83). -/
def partsOf (s : Series) : List String := splitDots s.id

/-- The qualification test of line 86: at least five segments, third segment
a fuel-tech marker, fifth segment the energy metric. -/
def qualifiesB (s : Series) : Bool :=
  decide (5 ≤ (partsOf s).length ∧ (partsOf s).getD 2 "" = "fuel_tech"
    ∧ (partsOf s).getD 4 "" = "energy")

/-- The fuel-technology code: fourth id segment (line 87). -/
def fuelTechOf (s : Series) : String := (partsOf s).getD 3 ""

/-- The extracted mapping, modelling the nested defaultdict of line 66 as a
function from (period key, fuel tech) to an optional value; a key absent
from the Python dict is modelled by `none`. -/
abbrev EMap : Type := DateKey → String → Option ℚ

/-- The empty extracted mapping. -/
def emptyEMap : EMap := fun _ _ => none

/-- Store a value under (key, tech), overwriting any previous value
(line 118). -/
def insertVal (m : EMap) (k : DateKey) (t : String) (v : ℚ) : EMap :=
  fun k' t' => if k' = k ∧ t' = t then some v else m k' t'

/-- Period key of sample `i` (lines 100-116): the declared history interval
defaults by granularity, and the monthly branch is taken whenever the
declared interval is monthly or the requested granularity is monthly. -/
def dateKeyOf (itv : String) (h : History) (i : ℕ) : DateKey :=
  let dataInterval := h.interval.getD (if itv = "month" then "1M" else "1D")
  if dataInterval = "1M" ∨ itv = "month" then
    DateKey.month (monthKeyPair h.start.year h.start.month i).1
      (monthKeyPair h.start.year h.start.month i).2
  else
    DateKey.day (format_day (addDays h.start i))

/-- The enumerate loop of lines 103-118: null samples are skipped, others are
stored under the derived key. -/
def foldSamples (ft : String) (key : ℕ → DateKey) : EMap → ℕ → List (Option ℚ) → EMap
  | acc, _, [] => acc
  | acc, i, none :: rest => foldSamples ft key acc (i + 1) rest
  | acc, i, some v :: rest => foldSamples ft key (insertVal acc (key i) ft v) (i + 1) rest

/-- Processing of one series (lines 77-118): skip non-qualifying ids, skip
the two excluded consumption technologies, skip malformed history blocks,
and otherwise fold the sample array into the accumulator. -/
def processSeries (itv : String) (acc : EMap) (s : Series) : EMap :=
  if qualifiesB s then
    if fuelTechOf s = "pumps" ∨ fuelTechOf s = "battery_charging" then acc
    else
      match s.history with
      | some h => foldSamples (fuelTechOf s) (dateKeyOf itv h) acc 0 h.data
      | none => acc
  else acc

/-- Embedding of `extract_energy_data(api_response, interval)` (lines
51-120).  The payload is the series list (the normalization of the wrapped
object form at lines 71-74 only selects this list). -/
def extract_energy_data (payload : List Series) (itv : String) : EMap :=
  payload.foldl (processSeries itv) emptyEMap

/-- Provenance of a mapping entry within one series: the series qualifies,
is not an excluded technology, and carries a non-null sample with this value
whose derived period key is the given one. -/
def SeriesOrigin (itv : String) (s : Series) (k : DateKey) (t : String) (v : ℚ) : Prop :=
  qualifiesB s = true ∧ t = fuelTechOf s
    ∧ ¬(t = "pumps" ∨ t = "battery_charging")
    ∧ ∃ h, s.history = some h ∧ ∃ j, h.data[j]? = some (some v) ∧ k = dateKeyOf itv h j

example :
    extract_energy_data
      [⟨"au.nem.fuel_tech.coal_black.energy", some ⟨⟨2020, 11, 1⟩, some "1M", [none, some 7]⟩⟩]
      "month" (DateKey.month 2020 12) "coal_black" = some 7 := by decide

/-! ### Share aggregator (`lib/process.py`, `calculate_monthly_rolling_averages`,
lines 131-196) -/

/-- The fossil technology codes (`lib/process.py` lines 12-15). -/
def FOSSILS : List String :=
  ["gas_recip", "gas_ocgt", "gas_ccgt", "gas_steam",
   "gas_lfg", "gas_wcmg", "distillate", "coal_brown", "coal_black"]

/-- The renewable technology codes (`lib/process.py` lines 17-20). -/
def RENEWABLES : List String :=
  ["solar_utility", "solar_rooftop", "wind", "hydro",
   "bioenergy_biomass", "bioenergy_biogas"]

/-- Per-period technology-to-value dictionary, as an association list. -/
abbrev TechMap : Type := List (String × ℚ)

/-- The monthly mapping consumed by the aggregator: a dictionary from
`(year, month)` period keys to technology dictionaries. -/
abbrev MonthlyData : Type := List ((ℕ × ℕ) × TechMap)

/-- First-match association-list lookup, modelling dictionary access. -/
def alookup {α β : Type} [DecidableEq α] : List (α × β) → α → Option β
  | [], _ => none
  | (k, v) :: rest, a => if k = a then some v else alookup rest a

/-- The technology dictionary of one period (`monthly_data[date]`, line 168). -/
def lookupTech (md : MonthlyData) (d : ℕ × ℕ) : TechMap := (alookup md d).getD []

/-- Sum of all values of a technology dictionary: every technology counts
towards the total (lines 171-172). -/
def sumAll (tm : TechMap) : ℚ := (tm.map Prod.snd).sum

/-- Sum of the values whose technology is fossil (lines 175-176). -/
def sumFossil (tm : TechMap) : ℚ :=
  ((tm.filter fun p => decide (p.1 ∈ FOSSILS)).map Prod.snd).sum

/-- Sum of the values whose technology is renewable; the elif of line 177
excludes anything already counted as fossil. -/
def sumRenewable (tm : TechMap) : ℚ :=
  ((tm.filter fun p => decide (p.1 ∉ FOSSILS ∧ p.1 ∈ RENEWABLES)).map Prod.snd).sum

/-- Sum of the values in neither category (these count only to the total). -/
def sumOther (tm : TechMap) : ℚ :=
  ((tm.filter fun p => decide (p.1 ∉ FOSSILS ∧ p.1 ∉ RENEWABLES)).map Prod.snd).sum

/-- Python tuple ordering on `(year, month)` period keys. -/
def periodLE (a b : ℕ × ℕ) : Prop := a.1 < b.1 ∨ (a.1 = b.1 ∧ a.2 ≤ b.2)

/-- Strict Python tuple ordering on `(year, month)` period keys. -/
def periodLT (a b : ℕ × ℕ) : Prop := a.1 < b.1 ∨ (a.1 = b.1 ∧ a.2 < b.2)

instance : DecidableRel periodLE := fun a b => by unfold periodLE; infer_instance

instance : DecidableRel periodLT := fun a b => by unfold periodLT; infer_instance

instance : IsTotal (ℕ × ℕ) periodLE := ⟨fun a b => by unfold periodLE; omega⟩

instance : IsTrans (ℕ × ℕ) periodLE := ⟨fun a b c => by unfold periodLE; omega⟩

/-- The ascending period keys (`sorted(monthly_data.keys())`, line 146). -/
def sortedDates (md : MonthlyData) : List (ℕ × ℕ) :=
  List.insertionSort periodLE (md.map Prod.fst)

/-- The window of periods ending at index `i` (line 161, the slice from
`i - window_size + 1` to `i + 1` of the sorted keys). -/
def windowDates (md : MonthlyData) (w i : ℕ) : List (ℕ × ℕ) :=
  ((sortedDates md).drop (i + 1 - w)).take w

/-- Fossil sum over the window ending at index `i` (lines 163-176). -/
def windowFossil (md : MonthlyData) (w i : ℕ) : ℚ :=
  ((windowDates md w i).map fun d => sumFossil (lookupTech md d)).sum

/-- Renewable sum over the window ending at index `i` (lines 164-178). -/
def windowRenewable (md : MonthlyData) (w i : ℕ) : ℚ :=
  ((windowDates md w i).map fun d => sumRenewable (lookupTech md d)).sum

/-- Total sum over the window ending at index `i` (lines 165-172). -/
def windowTotal (md : MonthlyData) (w i : ℕ) : ℚ :=
  ((windowDates md w i).map fun d => sumAll (lookupTech md d)).sum

/-- Uncategorized sum over the window ending at index `i`. -/
def windowOther (md : MonthlyData) (w i : ℕ) : ℚ :=
  ((windowDates md w i).map fun d => sumOther (lookupTech md d)).sum

/-- The result row emitted for window end-point `i`: period key and the two
percentage shares (lines 182-192). -/
def mkEntry (md : MonthlyData) (w i : ℕ) : (ℕ × ℕ) × ℚ × ℚ :=
  ((sortedDates md).getD i (0, 0),
   windowFossil md w i / windowTotal md w i * 100,
   windowRenewable md w i / windowTotal md w i * 100)

/-- The emitted result rows: one per index `i` from `window_size - 1` to the
last period (line 159), guarded by a positive window total (line 181). -/
def rollingEntries (md : MonthlyData) (w : ℕ) : List ((ℕ × ℕ) × ℚ × ℚ) :=
  (List.range' (w - 1) ((sortedDates md).length - (w - 1))).filterMap fun i =>
    if 0 < windowTotal md w i then some (mkEntry md w i) else none

/-- Embedding of `calculate_monthly_rolling_averages(monthly_data,
window_size)` (lines 131-196; `window_size` defaults to 12 in Python).  The
loop appends the formatted date and the two shares in lockstep, which is the
projection of the emitted rows. -/
def calculate_monthly_rolling_averages (md : MonthlyData) (w : ℕ) :
    List String × List ℚ × List ℚ :=
  if sortedDates md = [] then ([], [], [])
  else
    ((rollingEntries md w).map fun e => format_date e.1.1 e.1.2,
     (rollingEntries md w).map fun e => e.2.1,
     (rollingEntries md w).map fun e => e.2.2)

/-! ### Trailing-year estimator (`lib/process.py`, `calculate_last_year_average`,
lines 199-274) -/

/-- Lexicographic comparison of character lists by code point: the semantics
of Python string comparison for the ISO date strings of the daily mapping. -/
def charListLE : List Char → List Char → Bool
  | [], _ => true
  | _ :: _, [] => false
  | a :: as, b :: bs => if a < b then true else if b < a then false else charListLE as bs

/-- Python string less-or-equal, used by the date-range filter of
lines 233-236. -/
def strLE (a b : String) : Bool := charListLE a.data b.data

/-- The merged daily mapping: ISO date string to technology dictionary. -/
abbrev DailyData : Type := List (String × TechMap)

/-- The sorted, range-filtered window dates of lines 233-236. -/
def lyWindowDates (ad : DailyData) (s e : String) : List String :=
  (List.insertionSort (fun a b => strLE a b = true) (ad.map Prod.fst)).filter
    fun x => strLE s x && strLE x e

/-- Fossil sum over the trailing-year window (lines 241-254). -/
def lyFossil (ad : DailyData) (s e : String) : ℚ :=
  ((lyWindowDates ad s e).map fun d => sumFossil ((alookup ad d).getD [])).sum

/-- Renewable sum over the trailing-year window (lines 241-256). -/
def lyRenewable (ad : DailyData) (s e : String) : ℚ :=
  ((lyWindowDates ad s e).map fun d => sumRenewable ((alookup ad d).getD [])).sum

/-- Total sum over the trailing-year window (lines 241-250). -/
def lyTotal (ad : DailyData) (s e : String) : ℚ :=
  ((lyWindowDates ad s e).map fun d => sumAll ((alookup ad d).getD [])).sum

/-- The share computation of `calculate_last_year_average` (lines 229-274)
on the merged daily mapping and the window boundary strings.  An empty
window is `none`: line 238 indexes the first window date for the progress
message and raises `IndexError` on an empty list. -/
def last_year_shares (ad : DailyData) (s e : String) : Option (ℚ × ℚ) :=
  if lyWindowDates ad s e = [] then none
  else if 0 < lyTotal ad s e then
    some (lyFossil ad s e / lyTotal ad s e * 100, lyRenewable ad s e / lyTotal ad s e * 100)
  else some (0, 0)

/-- The trailing-year window of `calculate_last_year_average` lines 211-215:
yesterday, and the day after the year-decremented yesterday.  The
year-decrement is `date.replace`, which raises (modelled as `none`) when
yesterday is Feb 29. -/
def lastYearWindow (today : CalDate) : Option (CalDate × CalDate) :=
  let yd := predDay today
  match replaceYear yd (yd.year - 1) with
  | some oya => some (succDay oya, yd)
  | none => none

/-- Number of calendar days in the inclusive window from `ws` to `yd`. -/
def windowSpanDays (ws yd : CalDate) : ℕ := ordinal yd + 1 - ordinal ws

/-- The trailing-year window ending at `yd` contains a Feb 29 exactly when
this holds (for the windows produced by `lastYearWindow`). -/
def crossesFeb29 (yd : CalDate) : Prop :=
  if 3 ≤ yd.month then isLeap yd.year else isLeap (yd.year - 1)

instance (yd : CalDate) : Decidable (crossesFeb29 yd) := by unfold crossesFeb29; infer_instance

/-! ## Helper lemmas -/

/-- Closed form for calendar month addition, matching the derived-key
arithmetic. -/
theorem addMonths_formula (i : ℕ) : ∀ (y m : ℕ), 1 ≤ m → m ≤ 12 →
    addMonths (y, m) i = (y + (m + i - 1) / 12, (m + i - 1) % 12 + 1) := by
  induction i with
  | zero =>
    intro y m h1 h2
    show (y, m) = _
    rw [Prod.mk.injEq]
    constructor <;> omega
  | succ i ih =>
    intro y m h1 h2
    show addMonths (nextMonth (y, m)) i = _
    by_cases hm : m = 12
    · subst hm
      have h12 : nextMonth (y, 12) = (y + 1, 1) := by simp [nextMonth]
      rw [h12, ih (y + 1) 1 (by omega) (by omega), Prod.mk.injEq]
      constructor <;> omega
    · have hs : nextMonth (y, m) = (y, m + 1) := by simp [nextMonth, hm]
      rw [hs, ih y (m + 1) (by omega) (by omega), Prod.mk.injEq]
      constructor <;> omega

/-- The half-even integer rounding is within one half of its argument. -/
theorem rhe_sub_abs (x : ℚ) : |(rhe x : ℚ) - x| ≤ 1/2 := by
  have h1 : ((⌊x⌋ : ℤ) : ℚ) ≤ x := Int.floor_le x
  have h2 : x < (⌊x⌋ : ℚ) + 1 := Int.lt_floor_add_one x
  unfold rhe
  split_ifs with ha hb hc <;> (rw [abs_le]; push_cast; constructor <;> linarith)

/-- Rounding to `d` decimal digits moves the value by at most half a unit in
the last place. -/
theorem roundTo_sub_abs (q : ℚ) (d : ℤ) : |roundTo q d - q| ≤ 1/2 * (10:ℚ) ^ (-d) := by
  have hp : (0:ℚ) < 10 ^ d := zpow_pos (by norm_num) d
  have h := rhe_sub_abs (q * 10 ^ d)
  unfold roundTo
  rw [zpow_neg]
  have e : (rhe (q * 10 ^ d) : ℚ) / 10 ^ d - q = ((rhe (q * 10 ^ d) : ℚ) - q * 10 ^ d) / 10 ^ d := by
    field_simp
    ring
  rw [e, abs_div, abs_of_pos hp, div_le_iff₀ hp]
  have e2 : 1/2 * ((10:ℚ) ^ d)⁻¹ * 10 ^ d = 1/2 := by
    field_simp
    ring
  rw [e2]
  exact h

/-- Half-even rounding fixes integers. -/
theorem rhe_intCast (z : ℤ) : rhe (z : ℚ) = z := by
  unfold rhe
  rw [Int.floor_intCast, sub_self]
  norm_num

/-- Rounding at `d` decimal digits fixes a value that is already an integer
multiple of the grid. -/
theorem roundTo_int_mul (x : ℚ) (d : ℤ) (z : ℤ) (hz : x * 10 ^ d = (z : ℚ)) :
    roundTo x d = x := by
  have hp : ((10:ℚ) ^ d) ≠ 0 := ne_of_gt (zpow_pos (by norm_num) d)
  unfold roundTo
  rw [hz, rhe_intCast, ← hz, mul_div_cancel_right₀ x hp]

/-- For `d ≤ 10`, a value rounded to `d` decimal digits times `10 ^ 10` is an
integer. -/
theorem roundTo_mul_ten_int (q : ℚ) (d : ℤ) (hd : d ≤ 10) :
    ∃ z : ℤ, roundTo q d * 10 ^ (10:ℤ) = (z : ℚ) := by
  refine ⟨rhe (q * 10 ^ d) * 10 ^ ((10 - d).toNat), ?_⟩
  have h0 : (10:ℚ) ≠ 0 := by norm_num
  have e : (((10 - d).toNat : ℤ)) = 10 - d := Int.toNat_of_nonneg (by omega)
  unfold roundTo
  push_cast
  rw [← zpow_natCast (10:ℚ) ((10 - d).toNat), e, zpow_sub₀ h0]
  field_simp

/-- The fueled logarithm is a lower bound: `10 ^ log10fuel n n ≤ n`. -/
theorem log10fuel_pow_le : ∀ (fuel n : ℕ), 1 ≤ n → n ≤ fuel → 10 ^ log10fuel fuel n ≤ n := by
  intro fuel
  induction fuel with
  | zero =>
    intro n h1 _
    simpa [log10fuel] using h1
  | succ fuel ih =>
    intro n h1 h2
    by_cases h : n < 10
    · simp only [log10fuel]
      rw [if_pos h]
      simpa using h1
    · simp only [log10fuel]
      rw [if_neg h]
      have hd1 : 1 ≤ n / 10 := by omega
      have hd2 : n / 10 ≤ fuel := by omega
      have hih := ih (n / 10) hd1 hd2
      rw [pow_succ]
      calc 10 ^ log10fuel fuel (n / 10) * 10 ≤ n / 10 * 10 := Nat.mul_le_mul_right 10 hih
        _ ≤ n := by omega

/-- The fueled ceiling logarithm is an upper bound: `n ≤ 10 ^ clog10fuel n n`. -/
theorem le_pow_clog10fuel : ∀ (fuel n : ℕ), n ≤ fuel → n ≤ 10 ^ clog10fuel fuel n := by
  intro fuel
  induction fuel with
  | zero =>
    intro n h
    simp only [clog10fuel]
    omega
  | succ fuel ih =>
    intro n h
    by_cases h1 : n ≤ 1
    · simp only [clog10fuel]
      rw [if_pos h1]
      simpa using h1
    · simp only [clog10fuel]
      rw [if_neg h1]
      have hm : (n + 9) / 10 ≤ fuel := by omega
      have hih := ih ((n + 9) / 10) hm
      rw [pow_succ]
      calc n ≤ (n + 9) / 10 * 10 := by omega
        _ ≤ 10 ^ clog10fuel fuel ((n + 9) / 10) * 10 := Nat.mul_le_mul_right 10 hih

/-- Lower bound of the exact floor logarithm on positive rationals. -/
theorem floorLog10_zpow_le (q : ℚ) (hq : 0 < q) : (10:ℚ) ^ floorLog10 q ≤ q := by
  unfold floorLog10
  split_ifs with h1
  · have hfl : 1 ≤ ⌊q⌋ := Int.le_floor.mpr (by exact_mod_cast h1)
    have hn1 : 1 ≤ (⌊q⌋).toNat := by omega
    have hb := log10fuel_pow_le (⌊q⌋).toNat (⌊q⌋).toNat hn1 le_rfl
    rw [zpow_natCast]
    have hcast : (((⌊q⌋).toNat : ℕ) : ℚ) = ((⌊q⌋ : ℤ) : ℚ) := by
      exact_mod_cast congrArg (fun z : ℤ => (z : ℚ)) (Int.toNat_of_nonneg (by omega))
    calc ((10:ℚ)) ^ log10fuel (⌊q⌋).toNat (⌊q⌋).toNat ≤ (((⌊q⌋).toNat : ℕ) : ℚ) := by
          exact_mod_cast hb
      _ = ((⌊q⌋ : ℤ) : ℚ) := hcast
      _ ≤ q := Int.floor_le q
  · have hq1 : (1:ℚ) < q⁻¹ := by
      rw [lt_inv_comm₀ (by norm_num) hq]
      simpa using not_le.mp h1
    have hnn : (0:ℤ) ≤ ⌈q⁻¹⌉ := Int.ceil_nonneg (by positivity)
    have hcc : q⁻¹ ≤ (((⌈q⁻¹⌉).toNat : ℕ) : ℚ) := by
      calc q⁻¹ ≤ ((⌈q⁻¹⌉ : ℤ) : ℚ) := Int.le_ceil _
        _ = (((⌈q⁻¹⌉).toNat : ℕ) : ℚ) := by exact_mod_cast (Int.toNat_of_nonneg hnn).symm
    have hcf := le_pow_clog10fuel (⌈q⁻¹⌉).toNat (⌈q⁻¹⌉).toNat le_rfl
    rw [zpow_neg, zpow_natCast]
    have h10 : q⁻¹ ≤ (10:ℚ) ^ clog10fuel (⌈q⁻¹⌉).toNat (⌈q⁻¹⌉).toNat :=
      le_trans hcc (by exact_mod_cast hcf)
    have hinv := inv_anti₀ (inv_pos.mpr hq) h10
    rwa [inv_inv] at hinv

/-! ## Claim theorems -/

/-- Claim C1: for every monthly series start `(sy, sm)` and every sample
index `i < 240`, the derived period key of `extract_energy_data` (the
`month_offset` / floor-division / modulo arithmetic of lines 108-112) equals
direct calendar addition of `i` months to the start; in particular a
November start with `i = 2` lands in January of the following year. -/
theorem c1_month_key_eq_calendar_addition (sy sm i : ℕ)
    (h1 : 1 ≤ sm) (h2 : sm ≤ 12) (_hi : i < 240) :
    monthKeyPair sy sm i = addMonths (sy, sm) i
    ∧ monthKeyPair sy 11 2 = (sy + 1, 1) := by
  constructor
  · rw [addMonths_formula i sy sm h1 h2]
    rfl
  · show (sy + (11 + 2 - 1) / 12, (11 + 2 - 1) % 12 + 1) = (sy + 1, 1)
    rw [Prod.mk.injEq]
    constructor <;> omega

/-- Witness for C1 at the November example of the specification. -/
theorem c1_month_key_eq_calendar_addition_witness :
    monthKeyPair 2006 11 2 = addMonths (2006, 11) 2
    ∧ monthKeyPair 2006 11 2 = (2006 + 1, 1) :=
  c1_month_key_eq_calendar_addition 2006 11 2 (by decide) (by decide) (by decide)

/-- Claim C5 (code bug): `format_precision` maps 0 to integer 0 and realizes
the stated examples, but it does NOT round every nonzero value to
`min_sig_figs - 1 - floor(log10 |value|)` decimal digits: at
`value = 1.23456e-9` (here `123456/10^14`) the required rounding is to 12
decimal digits, giving `1.235e-9`, while the fixed 10-decimal-place string
formatting of line 41 truncates the result to `1.2e-9`.  The last two
conjuncts exhibit the divergence. -/
theorem c5_format_precision_rounding_and_tiny_input_bug :
    format_precision 0 4 = PyNum.int 0
    ∧ format_precision (12345678/10000) 4 = PyNum.int 1235
    ∧ format_precision (123456/1000000) 4 = PyNum.float (1235/10000)
    ∧ format_precision 1000 4 = PyNum.int 1000
    ∧ (-(floorLog10 |(123456/100000000000000 : ℚ)|) + (4:ℤ) - 1) = 12
    ∧ roundTo (123456/100000000000000) 12 = 1235/1000000000000
    ∧ format_precision (123456/100000000000000) 4 = PyNum.float (12/10000000000)
    ∧ pyVal (format_precision (123456/100000000000000) 4)
        ≠ roundTo (123456/100000000000000) 12 := by
  refine ⟨by decide, by decide, by decide, by decide, by decide, by decide, by decide, by decide⟩

/-- Counterexample to claim C6 as stated: `format_precision` does not
preserve every digit left of the decimal point; at the specification's own
example input `1234.5678` the integer part changes from 1234 to 1235. -/
theorem c6_integer_digits_not_preserved :
    format_precision (12345678/10000) 4 = PyNum.int 1235
    ∧ ⌊(12345678/10000 : ℚ)⌋ = 1234
    ∧ ⌊pyVal (format_precision (12345678/10000) 4)⌋ ≠ ⌊(12345678/10000 : ℚ)⌋ := by
  refine ⟨by decide, by decide, by decide⟩

/-- Claim C6 (amended): for every nonzero value whose magnitude admits the
10-decimal rendering (`min_sig_figs ≤ floor(log10 |v|) + 11`, which holds for
all values the pipeline formats), `format_precision` returns exactly the
value rounded half-to-even at `min_sig_figs - 1 - floor(log10 |v|)` decimal
digits — trailing-zero stripping leaves the value unchanged — hence it
preserves the sign, and it moves the value by at most half a unit in the
last significant digit (so digits left of the decimal point are rounded,
never truncated). -/
theorem c6_value_rounding_characterization (q : ℚ) (n : ℕ) (h0 : q ≠ 0) (hn : 1 ≤ n)
    (hm : (n : ℤ) ≤ floorLog10 |q| + 11) :
    pyVal (format_precision q n) = roundTo q (-(floorLog10 |q|) + (n : ℤ) - 1)
    ∧ (0 < pyVal (format_precision q n) ↔ 0 < q)
    ∧ |pyVal (format_precision q n) - q| ≤ 1/2 * (10:ℚ) ^ (floorLog10 |q| - (n : ℤ) + 1) := by
  have habs : 0 < |q| := abs_pos.mpr h0
  have hml : (10:ℚ) ^ floorLog10 |q| ≤ |q| := floorLog10_zpow_le |q| habs
  have h1 : pyVal (format_precision q n) = roundTo q (-(floorLog10 |q|) + (n : ℤ) - 1) := by
    unfold format_precision
    rw [if_neg h0]
    split_ifs with hden
    · show ((roundTo q (-(floorLog10 |q|) + (n : ℤ) - 1)).num : ℚ) = _
      have hnd := Rat.num_div_den (roundTo q (-(floorLog10 |q|) + (n : ℤ) - 1))
      rw [hden] at hnd
      simpa using hnd
    · show roundTo (roundTo q (-(floorLog10 |q|) + (n : ℤ) - 1)) 10 = _
      obtain ⟨z, hz⟩ := roundTo_mul_ten_int q (-(floorLog10 |q|) + (n : ℤ) - 1) (by omega)
      exact roundTo_int_mul _ 10 z hz
  have herr : |pyVal (format_precision q n) - q|
      ≤ 1/2 * (10:ℚ) ^ (floorLog10 |q| - (n : ℤ) + 1) := by
    rw [h1]
    have hb := roundTo_sub_abs q (-(floorLog10 |q|) + (n : ℤ) - 1)
    have e : -(-(floorLog10 |q|) + (n : ℤ) - 1) = floorLog10 |q| - (n : ℤ) + 1 := by omega
    rwa [e] at hb
  refine ⟨h1, ?_, herr⟩
  have hsmall : (10:ℚ) ^ (floorLog10 |q| - (n : ℤ) + 1) ≤ 10 ^ floorLog10 |q| :=
    zpow_le_zpow_right₀ (by norm_num) (by omega)
  have hlt : |pyVal (format_precision q n) - q| < |q| := by
    calc |pyVal (format_precision q n) - q|
        ≤ 1/2 * (10:ℚ) ^ (floorLog10 |q| - (n : ℤ) + 1) := herr
      _ ≤ 1/2 * (10:ℚ) ^ floorLog10 |q| := by linarith
      _ < (10:ℚ) ^ floorLog10 |q| := by
          have : (0:ℚ) < (10:ℚ) ^ floorLog10 |q| := zpow_pos (by norm_num) _
          linarith
      _ ≤ |q| := hml
  have ha1 := le_abs_self (pyVal (format_precision q n) - q)
  have ha2 := neg_abs_le (pyVal (format_precision q n) - q)
  constructor
  · intro hpos
    rcases abs_cases q with ⟨e1, e2⟩ | ⟨e1, e2⟩
    · exact lt_of_le_of_ne e2 (Ne.symm h0)
    · rw [e1] at hlt
      rcases abs_cases (pyVal (format_precision q n) - q) with ⟨f1, _⟩ | ⟨f1, _⟩ <;>
        (rw [f1] at hlt; linarith)
  · intro hqpos
    rcases abs_cases q with ⟨e1, _⟩ | ⟨e1, e2⟩
    · rw [e1] at hlt
      rcases abs_cases (pyVal (format_precision q n) - q) with ⟨f1, _⟩ | ⟨f1, _⟩ <;>
        (rw [f1] at hlt; linarith)
    · linarith

/-- Witness for the amended C6 at the specification example `1234.5678`. -/
theorem c6_value_rounding_characterization_witness :
    pyVal (format_precision (12345678/10000 : ℚ) 4)
        = roundTo (12345678/10000 : ℚ) (-(floorLog10 |(12345678/10000 : ℚ)|) + (4 : ℤ) - 1)
    ∧ (0 < pyVal (format_precision (12345678/10000 : ℚ) 4) ↔ 0 < (12345678/10000 : ℚ))
    ∧ |pyVal (format_precision (12345678/10000 : ℚ) 4) - 12345678/10000|
        ≤ 1/2 * (10:ℚ) ^ (floorLog10 |(12345678/10000 : ℚ)| - (4 : ℤ) + 1) :=
  c6_value_rounding_characterization (12345678/10000) 4 (by decide) (by decide) (by decide)

/-- Every month has at least one day. -/
theorem daysInMonth_pos (y m : ℕ) : 1 ≤ daysInMonth y m := by
  unfold daysInMonth
  split_ifs <;> omega

/-- Unfolding step for the cumulative month-length sum. -/
theorem daysBeforeMonth_succ (y m : ℕ) (h : 1 ≤ m) :
    daysBeforeMonth y (m + 1) = daysBeforeMonth y m + daysInMonth y m := by
  cases m with
  | zero => omega
  | succ k => rfl

/-- December has 31 days in every year. -/
theorem daysInMonth_dec (y : ℕ) : daysInMonth y 12 = 31 := by
  unfold daysInMonth
  norm_num

/-- Cumulative days before December: 334, or 335 in a leap year. -/
theorem daysBeforeMonth_dec (y : ℕ) :
    daysBeforeMonth y 12 = if isLeap y then 335 else 334 := by
  by_cases hL : isLeap y <;> simp [daysBeforeMonth, daysInMonth, hL]

/-- The previous day of a valid date is valid, provided its year is still
positive. -/
theorem predDay_valid (d : CalDate) (hv : ValidDate d) (hy : 1 ≤ (predDay d).year) :
    ValidDate (predDay d) := by
  obtain ⟨h1, h2, h3, h4, h5⟩ := hv
  have hpos1 := daysInMonth_pos d.year (d.month - 1)
  have hpos31 := daysInMonth_dec (d.year - 1)
  unfold predDay at hy ⊢
  unfold ValidDate
  split_ifs at hy ⊢ with ha hb <;> dsimp only at hy ⊢ <;> omega

/-- The ordinal of the next day of a valid date is one larger. -/
theorem ordinal_succDay (d : CalDate) (hv : ValidDate d) :
    ordinal (succDay d) = ordinal d + 1 := by
  obtain ⟨h1, h2, h3, h4, h5⟩ := hv
  have hsucc := daysBeforeMonth_succ d.year d.month h2
  have hdec31 := daysInMonth_dec d.year
  have hdecSum := daysBeforeMonth_dec d.year
  unfold succDay
  split_ifs with ha hb
  · unfold ordinal
    dsimp only
    omega
  · unfold ordinal
    dsimp only
    omega
  · have hm12 : d.month = 12 := by omega
    unfold ordinal leapsBefore
    dsimp only
    rw [hm12] at h5 ha ⊢
    have hJan : daysBeforeMonth (d.year + 1) 1 = 0 := rfl
    by_cases hL : isLeap d.year
    · rw [if_pos hL] at hdecSum
      unfold isLeap at hL
      omega
    · rw [if_neg hL] at hdecSum
      unfold isLeap at hL
      omega

/-- January has 31 days in every year. -/
theorem daysInMonth_jan (y : ℕ) : daysInMonth y 1 = 31 := by
  unfold daysInMonth
  norm_num

/-- February has 29 days in leap years and 28 otherwise. -/
theorem daysInMonth_feb (y : ℕ) : daysInMonth y 2 = if isLeap y then 29 else 28 := by
  unfold daysInMonth
  norm_num

/-- Month lengths outside February do not depend on the year. -/
theorem daysInMonth_ne_feb (y z m : ℕ) (hm : m ≠ 2) : daysInMonth y m = daysInMonth z m := by
  unfold daysInMonth
  rw [if_neg hm, if_neg hm]

/-- Moving the cumulative month sum one year forward changes it exactly by
the difference of the February lengths, for months at least March. -/
theorem dbm_year_succ (Y : ℕ) : ∀ m, 3 ≤ m → m ≤ 12 →
    daysBeforeMonth (Y + 1) m + (if isLeap Y then 1 else 0)
      = daysBeforeMonth Y m + (if isLeap (Y + 1) then 1 else 0) := by
  intro m
  induction m with
  | zero => intro h3 _; omega
  | succ k ih =>
    intro h3 h12
    by_cases hk3 : 3 ≤ k
    · have e1 := daysBeforeMonth_succ (Y + 1) k (by omega)
      have e2 := daysBeforeMonth_succ Y k (by omega)
      have e3 : daysInMonth (Y + 1) k = daysInMonth Y k :=
        daysInMonth_ne_feb (Y + 1) Y k (by omega)
      have ihh := ih hk3 (by omega)
      omega
    · have hk2 : k = 2 := by omega
      subst hk2
      have b1 : daysBeforeMonth (Y + 1) 3 = 0 + daysInMonth (Y + 1) 1 + daysInMonth (Y + 1) 2 := rfl
      have b2 : daysBeforeMonth Y 3 = 0 + daysInMonth Y 1 + daysInMonth Y 2 := rfl
      have c1 := daysInMonth_jan (Y + 1)
      have c2 := daysInMonth_jan Y
      have f1 := daysInMonth_feb (Y + 1)
      have f2 := daysInMonth_feb Y
      by_cases hL1 : isLeap Y <;> by_cases hL2 : isLeap (Y + 1) <;>
        simp [hL1, hL2] at f1 f2 ⊢ <;>
        omega

/-- The count of leap years below `Y + 1` exceeds the count below `Y`
exactly when `Y` itself is leap. -/
theorem leapsBefore_succ (Y : ℕ) (hY : 1 ≤ Y) :
    leapsBefore (Y + 1) = leapsBefore Y + (if isLeap Y then 1 else 0) := by
  by_cases hL : isLeap Y
  · rw [if_pos hL]
    unfold isLeap at hL
    unfold leapsBefore
    omega
  · rw [if_neg hL]
    unfold isLeap at hL
    unfold leapsBefore
    omega

/-- Moving a (year, month, day) triple one year forward adds 365 days, or
366 when the span covers a Feb 29: February of the later year when the month
is at least March, February of the earlier year otherwise. -/
theorem ordinal_year_succ (Y m d : ℕ) (hY : 1 ≤ Y) (hm1 : 1 ≤ m) (hm2 : m ≤ 12) :
    ordinal ⟨Y + 1, m, d⟩
      = ordinal ⟨Y, m, d⟩
        + (if (if 3 ≤ m then isLeap (Y + 1) else isLeap Y) then 366 else 365) := by
  have hlb := leapsBefore_succ Y hY
  unfold ordinal
  dsimp only
  by_cases h3 : 3 ≤ m
  · have hdbm := dbm_year_succ Y m h3 hm2
    by_cases hL1 : isLeap Y <;> by_cases hL2 : isLeap (Y + 1)
    · have hcond : (if 3 ≤ m then isLeap (Y + 1) else isLeap Y) := by
        rw [if_pos h3]; exact hL2
      rw [if_pos hL1] at hdbm hlb
      rw [if_pos hL2] at hdbm
      rw [if_pos hcond]
      omega
    · have hcond : ¬ (if 3 ≤ m then isLeap (Y + 1) else isLeap Y) := by
        rw [if_pos h3]; exact hL2
      rw [if_pos hL1] at hdbm hlb
      rw [if_neg hL2] at hdbm
      rw [if_neg hcond]
      omega
    · have hcond : (if 3 ≤ m then isLeap (Y + 1) else isLeap Y) := by
        rw [if_pos h3]; exact hL2
      rw [if_neg hL1] at hdbm hlb
      rw [if_pos hL2] at hdbm
      rw [if_pos hcond]
      omega
    · have hcond : ¬ (if 3 ≤ m then isLeap (Y + 1) else isLeap Y) := by
        rw [if_pos h3]; exact hL2
      rw [if_neg hL1] at hdbm hlb
      rw [if_neg hL2] at hdbm
      rw [if_neg hcond]
      omega
  · have hdbm : daysBeforeMonth (Y + 1) m = daysBeforeMonth Y m := by
      have h12 : m = 1 ∨ m = 2 := by omega
      rcases h12 with h | h <;> subst h <;> rfl
    by_cases hL1 : isLeap Y
    · have hcond : (if 3 ≤ m then isLeap (Y + 1) else isLeap Y) := by
        rw [if_neg h3]; exact hL1
      rw [if_pos hL1] at hlb
      rw [if_pos hcond]
      omega
    · have hcond : ¬ (if 3 ≤ m then isLeap (Y + 1) else isLeap Y) := by
        rw [if_neg h3]; exact hL1
      rw [if_neg hL1] at hlb
      rw [if_neg hcond]
      omega

/-- Counterexample to claim C4 as stated: when yesterday is Feb 29 (here
today is 2024-03-01), `calculate_last_year_average` uses no deterministic
fallback date — the `date.replace` call raises `ValueError`, modelled as an
absent window. -/
theorem c4_feb29_no_fallback : lastYearWindow ⟨2024, 3, 1⟩ = none := by decide

/-- Claim C4 (amended): for every valid `today` for which the year-decrement
succeeds, the trailing-year window `[window_start, yesterday]` of
`calculate_last_year_average` (lines 211-215) spans exactly 365 calendar
days, and exactly 366 when the window crosses a Feb 29; when yesterday is
Feb 29 the year-decrement raises instead of using a fallback (see the
counterexample). -/
theorem c4_trailing_year_window_span (today ws yd : CalDate) (hv : ValidDate today)
    (hw : lastYearWindow today = some (ws, yd)) :
    windowSpanDays ws yd = if crossesFeb29 yd then 366 else 365 := by
  have hstep : lastYearWindow today
      = match replaceYear (predDay today) ((predDay today).year - 1) with
        | some oya => some (succDay oya, predDay today)
        | none => none := rfl
  rw [hstep] at hw
  rcases hrep : replaceYear (predDay today) ((predDay today).year - 1) with _ | oya
  · rw [hrep] at hw
    exact Option.noConfusion hw
  · rw [hrep] at hw
    have hpair : (succDay oya, predDay today) = (ws, yd) := Option.some.inj hw
    have hws : ws = succDay oya := (congrArg Prod.fst hpair).symm
    have hyd : yd = predDay today := (congrArg Prod.snd hpair).symm
    unfold replaceYear at hrep
    split_ifs at hrep with hval
    · have hoya : (⟨(predDay today).year - 1, (predDay today).month, (predDay today).day⟩ : CalDate)
          = oya := Option.some.inj hrep
      subst hoya
      have hc := hval
      unfold ValidDate at hc
      dsimp only at hc
      have hy2 : 2 ≤ (predDay today).year := by omega
      have hpv : ValidDate (predDay today) := predDay_valid today hv (by omega)
      have hsd := ordinal_succDay
        ⟨(predDay today).year - 1, (predDay today).month, (predDay today).day⟩ hval
      have hys := ordinal_year_succ ((predDay today).year - 1) (predDay today).month
        (predDay today).day hc.1 hc.2.1 hc.2.2.1
      have hyy : ((predDay today).year - 1) + 1 = (predDay today).year := by omega
      rw [hyy] at hys
      have heta2 : (⟨(predDay today).year, (predDay today).month, (predDay today).day⟩ : CalDate)
          = predDay today := rfl
      rw [heta2] at hys
      rw [hws, hyd]
      unfold windowSpanDays
      rw [hsd, hys]
      unfold crossesFeb29
      by_cases hcc : (if 3 ≤ (predDay today).month then isLeap (predDay today).year
          else isLeap ((predDay today).year - 1))
      · rw [if_pos hcc]
        omega
      · rw [if_neg hcc]
        omega

/-- Witness for the amended C4: today 2025-06-15 yields the window from
2024-06-15 to 2025-06-14, spanning 365 days. -/
theorem c4_trailing_year_window_span_witness :
    ValidDate ⟨2025, 6, 15⟩
    ∧ lastYearWindow ⟨2025, 6, 15⟩ = some (⟨2024, 6, 15⟩, ⟨2025, 6, 14⟩)
    ∧ windowSpanDays ⟨2024, 6, 15⟩ ⟨2025, 6, 14⟩ = 365 :=
  ⟨by decide, by decide,
    (c4_trailing_year_window_span ⟨2025, 6, 15⟩ ⟨2024, 6, 15⟩ ⟨2025, 6, 14⟩
      (by decide) (by decide)).trans (by decide)⟩


/-- Every technology value is counted in exactly one of the three category
sums: the total is fossil plus renewable plus other. -/
theorem sumAll_partition (tm : TechMap) :
    sumAll tm = sumFossil tm + sumRenewable tm + sumOther tm := by
  induction tm with
  | nil => simp [sumAll, sumFossil, sumRenewable, sumOther]
  | cons p rest ih =>
    unfold sumAll sumFossil sumRenewable sumOther at ih ⊢
    simp only [List.filter_cons]
    by_cases h1 : p.1 ∈ FOSSILS <;> by_cases h2 : p.1 ∈ RENEWABLES <;>
      simp [h1, h2] <;> simp at ih <;> linarith [ih]

/-- A successful association-list lookup returns a stored pair. -/
theorem alookup_mem {α β : Type} [DecidableEq α] (l : List (α × β)) (a : α) (b : β)
    (h : alookup l a = some b) : (a, b) ∈ l := by
  induction l with
  | nil => exact Option.noConfusion h
  | cons p rest ih =>
    rcases p with ⟨k, v⟩
    rw [show alookup ((k, v) :: rest) a = if k = a then some v else alookup rest a from rfl] at h
    split_ifs at h with he
    · subst he
      rw [(Option.some.inj h).symm]
      exact List.mem_cons_self _ _
    · exact List.mem_cons_of_mem _ (ih h)

/-- All values of the technology dictionary returned by `lookupTech` are
nonnegative when the mapping stores only nonnegative values. -/
theorem lookupTech_nonneg (md : MonthlyData)
    (hnn : ∀ pr ∈ md, ∀ p ∈ pr.2, (0:ℚ) ≤ p.2) (d : ℕ × ℕ) :
    ∀ p ∈ lookupTech md d, (0:ℚ) ≤ p.2 := by
  unfold lookupTech
  cases ha : alookup md d with
  | none => simp
  | some tm =>
    intro p hp
    exact hnn (d, tm) (alookup_mem md d tm ha) p hp

/-- A filtered value sum over nonnegative values is nonnegative. -/
theorem sum_filter_nonneg (tm : TechMap) (f : String × ℚ → Bool)
    (h : ∀ p ∈ tm, (0:ℚ) ≤ p.2) : 0 ≤ ((tm.filter f).map Prod.snd).sum := by
  apply List.sum_nonneg
  intro x hx
  obtain ⟨p, hp, he⟩ := List.mem_map.mp hx
  exact he ▸ h p (List.mem_of_mem_filter hp)

/-- Splitting a mapped sum along a pointwise three-way decomposition. -/
theorem sum_map_add3 {α : Type} (l : List α) (f g h k : α → ℚ)
    (he : ∀ a, k a = f a + g a + h a) :
    (l.map k).sum = (l.map f).sum + (l.map g).sum + (l.map h).sum := by
  induction l with
  | nil => simp
  | cons a t ih =>
    simp only [List.map_cons, List.sum_cons, he a, ih]
    ring

/-- The window total decomposes into the three category sums. -/
theorem windowTotal_partition (md : MonthlyData) (w i : ℕ) :
    windowTotal md w i = windowFossil md w i + windowRenewable md w i + windowOther md w i := by
  unfold windowTotal windowFossil windowRenewable windowOther
  exact sum_map_add3 _ _ _ _ _ (fun d => sumAll_partition (lookupTech md d))

/-- Category sums over a window of a nonnegative mapping are nonnegative. -/
theorem window_sums_nonneg (md : MonthlyData) (w i : ℕ)
    (hnn : ∀ pr ∈ md, ∀ p ∈ pr.2, (0:ℚ) ≤ p.2) :
    0 ≤ windowFossil md w i ∧ 0 ≤ windowRenewable md w i ∧ 0 ≤ windowOther md w i := by
  refine ⟨List.sum_nonneg ?_, List.sum_nonneg ?_, List.sum_nonneg ?_⟩ <;>
    (intro x hx; obtain ⟨d, _, he⟩ := List.mem_map.mp hx; rw [← he]) <;>
    exact sum_filter_nonneg _ _ (lookupTech_nonneg md hnn d)

/-- Membership in the emitted rolling rows, characterized by the window
end-point index. -/
theorem mem_rollingEntries (md : MonthlyData) (w : ℕ) (e : (ℕ × ℕ) × ℚ × ℚ) :
    e ∈ rollingEntries md w
      ↔ ∃ i, i ∈ List.range' (w - 1) ((sortedDates md).length - (w - 1))
          ∧ 0 < windowTotal md w i ∧ e = mkEntry md w i := by
  unfold rollingEntries
  rw [List.mem_filterMap]
  constructor
  · rintro ⟨i, hi, hsome⟩
    split_ifs at hsome with hpos
    · exact ⟨i, hi, hpos, (Option.some.inj hsome).symm⟩
  · rintro ⟨i, hi, hpos, he⟩
    exact ⟨i, hi, by rw [if_pos hpos, he]⟩

/-- Sorting does not change the key multiset. -/
theorem sortedDates_perm (md : MonthlyData) : (sortedDates md).Perm (md.map Prod.fst) :=
  List.perm_insertionSort periodLE (md.map Prod.fst)

/-- Distinct dictionary keys stay distinct after sorting. -/
theorem sortedDates_nodup (md : MonthlyData) (h : (md.map Prod.fst).Nodup) :
    (sortedDates md).Nodup :=
  (sortedDates_perm md).nodup_iff.mpr h

/-- The sorted keys are pairwise nondecreasing. -/
theorem sortedDates_sorted (md : MonthlyData) : List.Sorted periodLE (sortedDates md) :=
  List.sorted_insertionSort periodLE (md.map Prod.fst)

/-- With distinct keys, the sorted keys are pairwise strictly increasing. -/
theorem sortedDates_pairwise_lt (md : MonthlyData) (h : (md.map Prod.fst).Nodup) :
    List.Pairwise periodLT (sortedDates md) := by
  have hs : List.Pairwise periodLE (sortedDates md) := sortedDates_sorted md
  have hn : List.Pairwise (fun a b : ℕ × ℕ => a ≠ b) (sortedDates md) := sortedDates_nodup md h
  refine (hs.and hn).imp ?_
  rintro ⟨a1, a2⟩ ⟨b1, b2⟩ ⟨hle, hne⟩
  unfold periodLE at hle
  unfold periodLT
  have hne2 : ¬(a1 = b1 ∧ a2 = b2) := by simpa [Prod.ext_iff] using hne
  dsimp only at hle ⊢
  omega

/-- Strict order of sorted keys at distinct in-range positions. -/
theorem sortedDates_getD_lt (md : MonthlyData) (h : (md.map Prod.fst).Nodup)
    (i j : ℕ) (hij : i < j) (hj : j < (sortedDates md).length) :
    periodLT ((sortedDates md).getD i (0, 0)) ((sortedDates md).getD j (0, 0)) := by
  have hp := sortedDates_pairwise_lt md h
  rw [List.getD_eq_getElem _ _ (lt_trans hij hj), List.getD_eq_getElem _ _ hj]
  exact List.pairwise_iff_getElem.mp hp i j _ _ hij

/-- The emitted period keys are pairwise strictly increasing. -/
theorem rollingEntries_pairwise_lt (md : MonthlyData) (w : ℕ)
    (h : (md.map Prod.fst).Nodup) :
    List.Pairwise periodLT ((rollingEntries md w).map Prod.fst) := by
  unfold rollingEntries
  rw [List.map_filterMap]
  have hr : List.Pairwise (fun a b : ℕ => a < b)
      (List.range' (w - 1) ((sortedDates md).length - (w - 1))) :=
    List.pairwise_lt_range' _ _ 1 (by omega)
  have hr2 := List.Pairwise.and_mem.mp hr
  refine List.Pairwise.filterMap _ ?_ hr2
  rintro i j ⟨hi, hj, hij⟩ b hb b' hb'
  have hiR := List.mem_range'_1.mp hi
  have hjR := List.mem_range'_1.mp hj
  have hjlen : j < (sortedDates md).length := by omega
  simp only [Option.mem_def, Option.map_eq_some'] at hb hb'
  obtain ⟨eb, heb, hbb⟩ := hb
  obtain ⟨eb', heb', hbb'⟩ := hb'
  split_ifs at heb with hp1
  split_ifs at heb' with hp2
  have h1 : eb = mkEntry md w i := (Option.some.inj heb).symm
  have h2 : eb' = mkEntry md w j := (Option.some.inj heb').symm
  rw [← hbb, ← hbb', h1, h2]
  show periodLT ((sortedDates md).getD i (0, 0)) ((sortedDates md).getD j (0, 0))
  exact sortedDates_getD_lt md h i j hij hjlen

/-- A filter-map with no failures has full length. -/
theorem length_filterMap_all_some {α β : Type} (f : α → Option β) (l : List α)
    (h : ∀ a ∈ l, (f a).isSome) : (l.filterMap f).length = l.length := by
  induction l with
  | nil => rfl
  | cons a t ih =>
    have ha := h a (List.mem_cons_self _ _)
    cases hfa : f a with
    | none =>
      rw [hfa] at ha
      simp at ha
    | some b =>
      simp only [List.filterMap_cons, hfa, List.length_cons]
      rw [ih (fun x hx => h x (List.mem_cons_of_mem _ hx))]

/-- Counterexample to claim C2 as stated: with a negative stored value
(battery discharge of -50 against coal of 100) every window total is
positive (50), yet the emitted shares sum to 200, violating the claimed
bound of 100. -/
theorem c2_share_sum_counterexample :
    (∀ i, i < (sortedDates [((2020, 1),
        [("coal_black", (100:ℚ)), ("battery_discharging", -50)])]).length
      → 0 < windowTotal [((2020, 1),
        [("coal_black", (100:ℚ)), ("battery_discharging", -50)])] 1 i)
    ∧ ((2020, 1), (200:ℚ), (0:ℚ)) ∈ rollingEntries
        [((2020, 1), [("coal_black", (100:ℚ)), ("battery_discharging", -50)])] 1
    ∧ ¬ ((200:ℚ) + 0 ≤ 100) := by
  refine ⟨by decide, by decide, by decide⟩

/-- Claim C2 (amended): for every monthly mapping whose stored values are all
nonnegative, every emitted rolling result satisfies
`0 ≤ fossil_share + renewable_share ≤ 100`, with equality to 100 exactly
when the technologies outside the fossil and renewable sets contribute zero
to that window total. -/
theorem c2_share_sum_bounds (md : MonthlyData) (w : ℕ)
    (hnn : ∀ pr ∈ md, ∀ p ∈ pr.2, (0:ℚ) ≤ p.2) :
    ∀ e ∈ rollingEntries md w,
      0 ≤ e.2.1 + e.2.2 ∧ e.2.1 + e.2.2 ≤ 100
      ∧ (e.2.1 + e.2.2 = 100
          ↔ ∃ i, 0 < windowTotal md w i ∧ windowOther md w i = 0 ∧ e = mkEntry md w i) := by
  intro e he
  obtain ⟨i, hiR, hpos, hee⟩ := (mem_rollingEntries md w e).mp he
  obtain ⟨hf, hr, ho⟩ := window_sums_nonneg md w i hnn
  have hpart := windowTotal_partition md w i
  have ht : windowTotal md w i ≠ 0 := ne_of_gt hpos
  have hsum : e.2.1 + e.2.2
      = (windowFossil md w i + windowRenewable md w i) / windowTotal md w i * 100 := by
    rw [hee]
    unfold mkEntry
    dsimp only
    ring
  have hb1 : 0 ≤ e.2.1 + e.2.2 := by
    rw [hsum]
    have hd := div_nonneg
      (by linarith : (0:ℚ) ≤ windowFossil md w i + windowRenewable md w i) (le_of_lt hpos)
    linarith
  have hle1 : (windowFossil md w i + windowRenewable md w i) / windowTotal md w i ≤ 1 :=
    (div_le_one hpos).mpr (by linarith)
  have hb2 : e.2.1 + e.2.2 ≤ 100 := by
    rw [hsum]
    linarith
  refine ⟨hb1, hb2, ?_⟩
  constructor
  · intro h100
    refine ⟨i, hpos, ?_, hee⟩
    rw [hsum] at h100
    have h1 : (windowFossil md w i + windowRenewable md w i) / windowTotal md w i = 1 := by
      linarith
    have h2 := (div_eq_one_iff_eq ht).mp h1
    linarith
  · rintro ⟨j, hjpos, hjo, hje⟩
    have hjt : windowTotal md w j ≠ 0 := ne_of_gt hjpos
    have hjpart := windowTotal_partition md w j
    have hsum2 : e.2.1 + e.2.2
        = (windowFossil md w j + windowRenewable md w j) / windowTotal md w j * 100 := by
      rw [hje]
      unfold mkEntry
      dsimp only
      ring
    rw [hsum2]
    have hfr : windowFossil md w j + windowRenewable md w j = windowTotal md w j := by
      linarith
    rw [hfr, div_self hjt]
    norm_num

/-- Witness for the amended C2 on a one-month mapping with one fossil and
one renewable value. -/
theorem c2_share_sum_bounds_witness :
    0 ≤ (30:ℚ) + 70 ∧ (30:ℚ) + 70 ≤ 100
    ∧ ((30:ℚ) + 70 = 100
        ↔ ∃ i, 0 < windowTotal [((2020, 1), [("coal_black", (30:ℚ)), ("wind", 70)])] 1 i
            ∧ windowOther [((2020, 1), [("coal_black", (30:ℚ)), ("wind", 70)])] 1 i = 0
            ∧ ((2020, 1), (30:ℚ), (70:ℚ))
                = mkEntry [((2020, 1), [("coal_black", (30:ℚ)), ("wind", 70)])] 1 i) :=
  c2_share_sum_bounds [((2020, 1), [("coal_black", (30:ℚ)), ("wind", 70)])] 1
    (by decide) ((2020, 1), (30:ℚ), (70:ℚ)) (by decide)

/-- Claim C3: with distinct periods and all-positive window totals the
aggregator emits exactly `len - window_size + 1` results in ascending period
order, and with fewer periods than the window size it returns the empty
triple (without raising). -/
theorem c3_result_count_and_order (md : MonthlyData) (w : ℕ)
    (hnd : (md.map Prod.fst).Nodup) (hw : 1 ≤ w) :
    ((w ≤ (sortedDates md).length
        ∧ (∀ i, i < (sortedDates md).length → w - 1 ≤ i → 0 < windowTotal md w i))
      → ((rollingEntries md w).length = (sortedDates md).length - w + 1
          ∧ List.Pairwise periodLT ((rollingEntries md w).map Prod.fst)))
    ∧ ((sortedDates md).length < w → calculate_monthly_rolling_averages md w = ([], [], [])) := by
  constructor
  · rintro ⟨hlen, hpos⟩
    constructor
    · unfold rollingEntries
      rw [length_filterMap_all_some]
      · rw [List.length_range']
        omega
      · intro i hi
        have hiR := List.mem_range'_1.mp hi
        have h2 : i < (sortedDates md).length := by omega
        rw [if_pos (hpos i h2 hiR.1)]
        rfl
    · exact rollingEntries_pairwise_lt md w hnd
  · intro hlt
    have hempty : rollingEntries md w = [] := by
      unfold rollingEntries
      have h0 : (sortedDates md).length - (w - 1) = 0 := by omega
      rw [h0]
      rfl
    unfold calculate_monthly_rolling_averages
    split_ifs with hnil
    · rfl
    · rw [hempty]
      rfl

/-- Witness for C3: a two-month mapping with window 2 yields one result, and
the same mapping with window 5 yields the empty triple. -/
theorem c3_result_count_and_order_witness :
    ((rollingEntries [((2020, 1), [("wind", (1:ℚ))]), ((2020, 2), [("wind", 2)])] 2).length
        = (sortedDates [((2020, 1), [("wind", (1:ℚ))]), ((2020, 2), [("wind", 2)])]).length - 2 + 1
      ∧ List.Pairwise periodLT
          ((rollingEntries [((2020, 1), [("wind", (1:ℚ))]), ((2020, 2), [("wind", 2)])] 2).map
            Prod.fst))
    ∧ calculate_monthly_rolling_averages
        [((2020, 1), [("wind", (1:ℚ))]), ((2020, 2), [("wind", 2)])] 5 = ([], [], []) :=
  ⟨(c3_result_count_and_order [((2020, 1), [("wind", (1:ℚ))]), ((2020, 2), [("wind", 2)])] 2
      (by decide) (by decide)).1 ⟨by decide, by decide⟩,
   (c3_result_count_and_order [((2020, 1), [("wind", (1:ℚ))]), ((2020, 2), [("wind", 2)])] 5
      (by decide) (by decide)).2 (by decide)⟩

/-- Claim C10: the aggregator returns three lists of equal length — the
dates list is the formatted projection of the emitted rows — and the emitted
period keys are strictly ascending in calendar order. -/
theorem c10_lengths_and_ascending (md : MonthlyData) (w : ℕ)
    (hnd : (md.map Prod.fst).Nodup) :
    (calculate_monthly_rolling_averages md w).1
        = (rollingEntries md w).map (fun e => format_date e.1.1 e.1.2)
    ∧ (calculate_monthly_rolling_averages md w).1.length
        = (calculate_monthly_rolling_averages md w).2.1.length
    ∧ (calculate_monthly_rolling_averages md w).2.1.length
        = (calculate_monthly_rolling_averages md w).2.2.length
    ∧ List.Pairwise periodLT ((rollingEntries md w).map Prod.fst) := by
  have hempty : sortedDates md = [] → rollingEntries md w = [] := by
    intro h
    unfold rollingEntries
    rw [h]
    simp
  unfold calculate_monthly_rolling_averages
  split_ifs with hnil
  · rw [hempty hnil]
    exact ⟨rfl, rfl, rfl, by simp⟩
  · exact ⟨rfl, by simp, by simp, rollingEntries_pairwise_lt md w hnd⟩

/-- Witness for C10 on a two-month mapping. -/
theorem c10_lengths_and_ascending_witness :
    (calculate_monthly_rolling_averages
        [((2020, 1), [("wind", (1:ℚ))]), ((2020, 2), [("wind", 2)])] 1).1
      = (rollingEntries [((2020, 1), [("wind", (1:ℚ))]), ((2020, 2), [("wind", 2)])] 1).map
          (fun e => format_date e.1.1 e.1.2)
    ∧ (calculate_monthly_rolling_averages
        [((2020, 1), [("wind", (1:ℚ))]), ((2020, 2), [("wind", 2)])] 1).1.length
      = (calculate_monthly_rolling_averages
        [((2020, 1), [("wind", (1:ℚ))]), ((2020, 2), [("wind", 2)])] 1).2.1.length
    ∧ (calculate_monthly_rolling_averages
        [((2020, 1), [("wind", (1:ℚ))]), ((2020, 2), [("wind", 2)])] 1).2.1.length
      = (calculate_monthly_rolling_averages
        [((2020, 1), [("wind", (1:ℚ))]), ((2020, 2), [("wind", 2)])] 1).2.2.length
    ∧ List.Pairwise periodLT
        ((rollingEntries [((2020, 1), [("wind", (1:ℚ))]), ((2020, 2), [("wind", 2)])] 1).map
          Prod.fst) :=
  c10_lengths_and_ascending [((2020, 1), [("wind", (1:ℚ))]), ((2020, 2), [("wind", 2)])] 1
    (by decide)

/-- Counterexample to claim C7 as stated: with no daily data at all the
trailing-year window is empty and its total is 0, but the code does not
return `(0, 0)` — it raises `IndexError` while printing the first window
date (line 238), modelled as `none`. -/
theorem c7_empty_window_counterexample :
    lyTotal [] "2024-01-01" "2024-12-31" = 0
    ∧ last_year_shares [] "2024-01-01" "2024-12-31" = none := by
  refine ⟨by decide, by decide⟩

/-- Claim C7 (amended): a window end-point whose total is not positive is
silently skipped by the rolling aggregator (its period appears in no emitted
row), and the trailing-year estimator returns `(0, 0)` when its window is
nonempty with total 0; an empty daily window instead raises (see the
counterexample). -/
theorem c7_degenerate_windows :
    (∀ (md : MonthlyData) (w i : ℕ), (md.map Prod.fst).Nodup → 1 ≤ w
      → w - 1 ≤ i → i < (sortedDates md).length → windowTotal md w i ≤ 0
      → (sortedDates md).getD i (0, 0) ∉ (rollingEntries md w).map Prod.fst)
    ∧ (∀ (ad : DailyData) (s e : String), lyWindowDates ad s e ≠ [] → lyTotal ad s e = 0
      → last_year_shares ad s e = some (0, 0)) := by
  constructor
  · intro md w i hnd hw hwi hilen hnp hmem
    obtain ⟨b, hb, hfst⟩ := List.mem_map.mp hmem
    obtain ⟨j, hjR, hjpos, hje⟩ := (mem_rollingEntries md w b).mp hb
    have hjb := List.mem_range'_1.mp hjR
    have hjlen : j < (sortedDates md).length := by omega
    have hfst2 : (sortedDates md).getD j (0, 0) = (sortedDates md).getD i (0, 0) := by
      rw [hje] at hfst
      exact hfst
    rcases Nat.lt_or_ge j i with hlt | hge
    · have hx := sortedDates_getD_lt md hnd j i hlt hilen
      rw [hfst2] at hx
      unfold periodLT at hx
      omega
    · have hne : j ≠ i := fun he => by
        rw [he] at hjpos
        linarith
      have hlt2 : i < j := by omega
      have hx := sortedDates_getD_lt md hnd i j hlt2 hjlen
      rw [hfst2] at hx
      unfold periodLT at hx
      omega
  · intro ad s e hne h0
    unfold last_year_shares
    rw [if_neg hne, if_neg (by rw [h0]; exact lt_irrefl 0)]

/-- Witness for the amended C7: a zero-valued single-month window is skipped
by the aggregator, and a nonempty zero-total daily window yields `(0, 0)`. -/
theorem c7_degenerate_windows_witness :
    (sortedDates [((2020, 1), [("coal_black", (0:ℚ))])]).getD 0 (0, 0)
        ∉ (rollingEntries [((2020, 1), [("coal_black", (0:ℚ))])] 1).map Prod.fst
    ∧ last_year_shares [("2024-01-05", [("wind", (0:ℚ))])] "2024-01-01" "2024-12-31"
        = some (0, 0) :=
  ⟨c7_degenerate_windows.1 [((2020, 1), [("coal_black", (0:ℚ))])] 1 0
      (by decide) (by decide) (by decide) (by decide) (by decide),
   c7_degenerate_windows.2 [("2024-01-05", [("wind", (0:ℚ))])] "2024-01-01" "2024-12-31"
      (by decide) (by decide)⟩

/-- Claim C8: the extractor excludes the pumped-hydro pumping and battery
charging codes unconditionally — a payload whose qualifying series all carry
one of these two codes extracts to the empty mapping, for every period key
and technology. -/
theorem c8_excluded_technologies (payload : List Series) (itv : String)
    (h : ∀ s ∈ payload, qualifiesB s = true
      → fuelTechOf s = "pumps" ∨ fuelTechOf s = "battery_charging") :
    ∀ k t, extract_energy_data payload itv k t = none := by
  unfold extract_energy_data
  suffices H : ∀ (pl : List Series) (acc : EMap),
      (∀ s ∈ pl, qualifiesB s = true
        → fuelTechOf s = "pumps" ∨ fuelTechOf s = "battery_charging")
      → (∀ k t, acc k t = none)
      → ∀ k t, List.foldl (processSeries itv) acc pl k t = none by
    exact H payload emptyEMap h (fun _ _ => rfl)
  intro pl
  induction pl with
  | nil => intro acc _ hacc k t; exact hacc k t
  | cons s rest ih =>
    intro acc hall hacc k t
    rw [List.foldl_cons]
    refine ih (processSeries itv acc s) (fun s' hs' => hall s' (List.mem_cons_of_mem _ hs')) ?_ k t
    intro k' t'
    unfold processSeries
    by_cases hq : qualifiesB s = true
    · rw [if_pos hq, if_pos (hall s (List.mem_cons_self _ _) hq)]
      exact hacc k' t'
    · rw [if_neg hq]
      exact hacc k' t'

/-- Witness for C8: a payload with a single qualifying pumps series extracts
to nothing. -/
theorem c8_excluded_technologies_witness :
    extract_energy_data
      [⟨"au.nem.fuel_tech.pumps.energy", some ⟨⟨2020, 1, 1⟩, some "1M", [some 5]⟩⟩]
      "month" (DateKey.month 2020 1) "pumps" = none :=
  c8_excluded_technologies
    [⟨"au.nem.fuel_tech.pumps.energy", some ⟨⟨2020, 1, 1⟩, some "1M", [some 5]⟩⟩]
    "month" (by decide) (DateKey.month 2020 1) "pumps"

/-- An update hit either is the stored pair or was already present. -/
theorem insertVal_some (m : EMap) (k : DateKey) (t : String) (v : ℚ)
    (k' : DateKey) (t' : String) (w : ℚ) (h : insertVal m k t v k' t' = some w) :
    (k' = k ∧ t' = t ∧ w = v) ∨ m k' t' = some w := by
  unfold insertVal at h
  split_ifs at h with hc
  · exact Or.inl ⟨hc.1, hc.2, (Option.some.inj h).symm⟩
  · exact Or.inr h

/-- Every entry produced by the sample fold comes from the accumulator or
from a non-null sample of the array, at the key derived from its index. -/
theorem foldSamples_origin (ft : String) (key : ℕ → DateKey) :
    ∀ (l : List (Option ℚ)) (acc : EMap) (i : ℕ) (k : DateKey) (t : String) (v : ℚ),
      foldSamples ft key acc i l k t = some v
      → acc k t = some v ∨ (t = ft ∧ ∃ d, l[d]? = some (some v) ∧ k = key (i + d)) := by
  intro l
  induction l with
  | nil => intro acc i k t v h; exact Or.inl h
  | cons o rest ih =>
    intro acc i k t v h
    cases o with
    | none =>
      rcases ih acc (i + 1) k t v h with ha | ⟨ht, d, hd, hk⟩
      · exact Or.inl ha
      · refine Or.inr ⟨ht, d + 1, by simpa using hd, ?_⟩
        rw [hk]
        congr 1
        omega
    | some v0 =>
      rcases ih (insertVal acc (key i) ft v0) (i + 1) k t v h with ha | ⟨ht, d, hd, hk⟩
      · rcases insertVal_some acc (key i) ft v0 k t v ha with ⟨hk, ht, hv⟩ | hm
        · exact Or.inr ⟨ht, 0, by simp [hv], by simp [hk]⟩
        · exact Or.inl hm
      · refine Or.inr ⟨ht, d + 1, by simpa using hd, ?_⟩
        rw [hk]
        congr 1
        omega

/-- Every entry produced by processing one series comes from the accumulator
or originates in a non-null sample of that series. -/
theorem processSeries_origin (itv : String) (acc : EMap) (s : Series) (k : DateKey)
    (t : String) (v : ℚ) (h : processSeries itv acc s k t = some v) :
    acc k t = some v ∨ SeriesOrigin itv s k t v := by
  unfold processSeries at h
  by_cases hq : qualifiesB s = true
  · rw [if_pos hq] at h
    by_cases hex : fuelTechOf s = "pumps" ∨ fuelTechOf s = "battery_charging"
    · rw [if_pos hex] at h
      exact Or.inl h
    · rw [if_neg hex] at h
      cases hh : s.history with
      | none =>
        rw [hh] at h
        exact Or.inl h
      | some hist =>
        rw [hh] at h
        rcases foldSamples_origin (fuelTechOf s) (dateKeyOf itv hist) hist.data acc 0 k t v h
          with ha | ⟨ht, d, hd, hk⟩
        · exact Or.inl ha
        · refine Or.inr ⟨hq, ht, ?_, hist, hh, d, hd, by simpa using hk⟩
          rw [ht]
          exact hex
  · rw [if_neg hq] at h
    exact Or.inl h

/-- Claim C9: null samples never create entries — every entry of the
extracted mapping originates in a non-null sample of some series of the
payload, so absence in the mapping is distinct from a stored zero. -/
theorem c9_entries_from_non_null_samples (payload : List Series) (itv : String)
    (k : DateKey) (t : String) (v : ℚ)
    (h : extract_energy_data payload itv k t = some v) :
    ∃ s ∈ payload, SeriesOrigin itv s k t v := by
  unfold extract_energy_data at h
  suffices H : ∀ (pl : List Series) (acc : EMap),
      List.foldl (processSeries itv) acc pl k t = some v
      → acc k t = some v ∨ ∃ s ∈ pl, SeriesOrigin itv s k t v by
    rcases H payload emptyEMap h with ha | hs
    · exact absurd ha (by simp [emptyEMap])
    · exact hs
  intro pl
  induction pl with
  | nil => intro acc h2; exact Or.inl h2
  | cons s rest ih =>
    intro acc h2
    rw [List.foldl_cons] at h2
    rcases ih (processSeries itv acc s) h2 with ha | ⟨s', hs', ho⟩
    · rcases processSeries_origin itv acc s k t v ha with h1 | h3
      · exact Or.inl h1
      · exact Or.inr ⟨s, List.mem_cons_self _ _, h3⟩
    · exact Or.inr ⟨s', List.mem_cons_of_mem _ hs', ho⟩

/-- Witness for C9: the mapping built from a series whose array is a null
followed by the value 7 stores 7 for December 2020, and that entry
originates in the non-null sample. -/
theorem c9_entries_from_non_null_samples_witness :
    ∃ s ∈ [(⟨"au.nem.fuel_tech.coal_black.energy",
        some ⟨⟨2020, 11, 1⟩, some "1M", [none, some 7]⟩⟩ : Series)],
      SeriesOrigin "month" s (DateKey.month 2020 12) "coal_black" 7 :=
  c9_entries_from_non_null_samples
    [⟨"au.nem.fuel_tech.coal_black.energy", some ⟨⟨2020, 11, 1⟩, some "1M", [none, some 7]⟩⟩]
    "month" (DateKey.month 2020 12) "coal_black" 7 (by decide)
